import Mathlib

/-
Verification of the Tripods repository (two educational notebooks:
`norm_concentration.ipynb` and the approximate Carathéodory notebook).

Embedding conventions:
* Python floats are modelled as rationals (ℚ); exact arithmetic stands in
  for floating point.
* The numpy / `random` pseudo-random primitives are modelled as oracle
  parameters: `standardNormalRaw j` is the j-th scalar produced by
  `rng.standard_normal`, `waldRaw mu lam j` the j-th scalar produced by
  `rng.wald(mu, lam, ...)`, and a uniform draw from `[0, a]` is modelled as
  `u * a` for an oracle fraction `u ∈ [0, 1]` (for `a ≥ 0` this covers
  exactly the support of `np.random.uniform(0, a)`).
* `np.sqrt` is modelled as an oracle function `npSqrt : ℚ → ℚ`; numpy's
  `sqrt` is total on floats (it returns NaN, with only a RuntimeWarning,
  on negative input — it never raises), so the model is a total function.
* Python exceptions are modelled with `Except PyErr`.
-/

namespace Tripods

/-- Python exceptions that the embedded code can raise. -/
inductive PyErr where
  | assertionError
  | attributeError
  | zeroDivisionError
deriving DecidableEq

/-- The `RandomVector` class of `norm_concentration.ipynb`: a dimension and
the component array.  The class never mutates a constructed instance, so a
plain structure models it faithfully. -/
structure RandomVector where
  dim : Nat
  components : List ℚ
deriving DecidableEq

/-- Embedding of `RandomVector.__init__` from `norm_concentration.ipynb`.

Source shape:
```
assert dim>0 and type(dim) is int
self.dim = dim
rng = np.random.default_rng()
if distribution == 'standard_normal':
    self.components = np.array(rng.standard_normal(dim))
if distribution == 'wald':
    self.components = np.array(rng.wald(1,1,dim))
self.components = mean+np.sqrt(variance)*self.components
```
The attribute `components` is unset before the two `if`s, which is modelled
by an `Option`: when neither branch fires, the final line reads the missing
attribute and Python raises `AttributeError`. -/
def RandomVector.init (dim : Nat) (distribution : String) (mean variance : ℚ)
    (npSqrt : ℚ → ℚ) (standardNormalRaw : Nat → ℚ) (waldRaw : ℚ → ℚ → Nat → ℚ) :
    Except PyErr RandomVector :=
  if 0 < dim then
    let comps0 : Option (List ℚ) := none
    let comps1 : Option (List ℚ) :=
      if distribution = "standard_normal" then
        some ((List.range dim).map standardNormalRaw)
      else comps0
    let comps2 : Option (List ℚ) :=
      if distribution = "wald" then
        some ((List.range dim).map (waldRaw 1 1))
      else comps1
    match comps2 with
    | none => Except.error PyErr.attributeError
    | some cs => Except.ok ⟨dim, cs.map (fun c => mean + npSqrt variance * c)⟩
  else Except.error PyErr.assertionError

/-- Embedding of `RandomVector.mean`: `self.components.mean()`, the sum of
the components divided by their number. -/
def RandomVector.componentMean (v : RandomVector) : ℚ :=
  v.components.sum / v.components.length

/-- Embedding of `RandomVector.norm_squared`:
`sum(t**2 for t in self.components)`. -/
def RandomVector.norm_squared (v : RandomVector) : ℚ :=
  (v.components.map (fun t => t ^ 2)).sum

/-- Embedding of `square_norm_expectation` from `norm_concentration.ipynb`.

Source shape:
```
vectors = frozenset(RandomVector(dim,distribution,mean,variance) for i in range(m))
norms_squared = tuple(x.norm_squared() for x in vectors)
return sum(norms_squared)/m
```
Each loop iteration constructs a fresh `RandomVector` object; the i-th call
consumes its own entropy, modelled by the streams `standardNormalRaws i` and
`waldRaws i`.  `RandomVector` defines no `__eq__`/`__hash__`, so the
`frozenset` compares the objects by identity; the identity of the i-th
object is modelled by tagging it with the loop index `i`.  Python's
division `sum(...)/m` raises `ZeroDivisionError` when `m = 0`. -/
def square_norm_expectation (m dim : Nat) (distribution : String)
    (mean variance : ℚ) (npSqrt : ℚ → ℚ) (standardNormalRaws : Nat → Nat → ℚ)
    (waldRaws : Nat → ℚ → ℚ → Nat → ℚ) : Except PyErr ℚ :=
  match (List.range m).mapM (fun i =>
      (RandomVector.init dim distribution mean variance npSqrt
        (standardNormalRaws i) (waldRaws i)).map (fun v => (i, v))) with
  | Except.error e => Except.error e
  | Except.ok objs =>
    let vectors : Finset (Nat × RandomVector) := objs.toFinset
    let norms_squared : Multiset ℚ :=
      vectors.val.map (fun o => o.2.norm_squared)
    if m = 0 then Except.error PyErr.zeroDivisionError
    else Except.ok (norms_squared.sum / m)

/-
Embedding of the approximate Carathéodory notebook (`src/unnamed/part_000`).
The notebook fixes globals `T` (a list of `m` points of `ℝ^n`),
`coefficients` (the simplex weights), `k`, and `x = Σ coefficients_i * T_i`;
the embedding passes them as parameters.  A point of `ℝ^n` is `Fin n → ℚ`.
-/

/-- Squared Euclidean distance `np.sum((u - v)**2)` between two points. -/
def sqDist {n : Nat} (u v : Fin n → ℚ) : ℚ :=
  ∑ c, (u c - v c) ^ 2

/-- Embedding of the notebook's stick-breaking cell producing `coefficients`.

Source shape:
```
coefficients = [0]*m
perm = np.random.permutation(m)
accum = 1.0
for i in perm[:-1]:
    coefficients[i] = np.random.uniform(0,accum)
    accum = accum - coefficients[i]
coefficients[perm[-1]] = accum
```
`perm` is passed as a list of indices (a permutation of `0,…,m-1` at the
call sites of interest); the j-th uniform draw from `[0, accum]` is
modelled as `u j * accum` with `u j ∈ [0, 1]`.

`stickStep` is one loop body: the state is
`(coefficients so far, accum, next draw index)`. -/
def stickStep {m : Nat} (u : Nat → ℚ) (st : (Fin m → ℚ) × ℚ × Nat)
    (i : Fin m) : (Fin m → ℚ) × ℚ × Nat :=
  let draw := u st.2.2 * st.2.1
  (Function.update st.1 i draw, st.2.1 - draw, st.2.2 + 1)

/-- The whole stick-breaking cell: run the loop over `perm[:-1]`, then give
all remaining mass to `perm[-1]`. -/
def coefficients (m : Nat) (perm : List (Fin m)) (u : Nat → ℚ) : Fin m → ℚ :=
  let st := perm.dropLast.foldl (stickStep u) (fun _ => 0, 1, 0)
  match perm.getLast? with
  | none => st.1
  | some iLast => Function.update st.1 iLast st.2.1

/-- Embedding of `sample_from_distribution`.

Source shape:
```
vectors = rand.choices(T, weights = coefficients, k = k)
vec_sum = np.zeros(len(T[0]))
for vec in vectors:
    vec_sum = vec_sum + vec
distance = np.sum((x - vec_sum/k)**2)
return distance, vectors
```
One run of `rand.choices` is a function `draw : Fin k → Fin m` giving the
index drawn at each of the `k` slots; the sequence `draw` occurs with
probability `∏ j, w (draw j)` when the weights `w` sum to 1. -/
def sample_from_distribution {m n : Nat} (T : Fin m → Fin n → ℚ)
    (x : Fin n → ℚ) (k : Nat) (draw : Fin k → Fin m) :
    ℚ × List (Fin n → ℚ) :=
  let vectors := (List.ofFn draw).map T
  let vec_sum : Fin n → ℚ := fun c => ∑ j, T (draw j) c
  let distance := ∑ c, (x c - vec_sum c / k) ^ 2
  (distance, vectors)

/-- Expectation of the `distance` component of `sample_from_distribution`
over the `k` independent weighted draws: the draw sequence
`draw : Fin k → Fin m` has probability `∏ j, w (draw j)` (for weights
summing to 1, as `rand.choices` normalizes by the total weight). -/
def expected_sq_distance {m n : Nat} (T : Fin m → Fin n → ℚ)
    (w : Fin m → ℚ) (x : Fin n → ℚ) (k : Nat) : ℚ :=
  ∑ d : Fin k → Fin m, (∏ j, w (d j)) * (sample_from_distribution T x k d).1

/-- Embedding of the `diamT` cell, squared.

Source shape:
```
diamT = 0
for i in range(len(T)):
    for j in range(i+1, len(T)):
        d_xixj = np.sqrt(np.sum((T[i] - T[j])**2))
        diamT = d_xixj if (d_xixj > diamT) else diamT
```
The code computes `diamT = max (0 :: [√(sqDist (T i) (T j)) | i < j])` and
the bound cell uses `diamT**2`.  Since `√` is monotone and all the squared
distances are non-negative, `diamT**2` equals the maximum of the squared
distances over the same pairs, seeded with `0`; the embedding computes that
square directly, avoiding irrational square roots. -/
def diamSqT {m n : Nat} (T : Fin m → Fin n → ℚ) : ℚ :=
  (Finset.univ.filter (fun p : Fin m × Fin m => p.1 < p.2)).fold max 0
    (fun p => sqDist (T p.1) (T p.2))

/-- Embedding of the notebook's trial loop.

Source shape:
```
samples = []
bestVal = float("inf")
best = None
for i in range(numSamples):
    sample, vectors = sample_from_distribution()
    if sample < bestVal:
        best = vectors
        bestVal = sample
    samples.append(sample)
```
`float("inf")` is modelled by `⊤ : WithTop ℚ` and the `None` start of
`best` by `Option`.  The i-th call of `sample_from_distribution` uses the
draw sequence `draws i`. -/
def trial_loop {m n : Nat} (T : Fin m → Fin n → ℚ) (x : Fin n → ℚ)
    (k trial_count : Nat) (draws : Nat → Fin k → Fin m) :
    List ℚ × WithTop ℚ × Option (List (Fin n → ℚ)) :=
  (List.range trial_count).foldl
    (fun st i =>
      let s := sample_from_distribution T x k (draws i)
      let upd : WithTop ℚ × Option (List (Fin n → ℚ)) :=
        if (s.1 : WithTop ℚ) < st.2.1 then ((s.1 : WithTop ℚ), some s.2)
        else (st.2.1, st.2.2)
      (st.1 ++ [s.1], upd.1, upd.2))
    ([], ⊤, none)

/-
Helper lemmas about the constructor.
-/

theorem init_standard_normal {dim : Nat} (hdim : 0 < dim) (mean variance : ℚ)
    (npSqrt : ℚ → ℚ) (snr : Nat → ℚ) (wr : ℚ → ℚ → Nat → ℚ) :
    RandomVector.init dim "standard_normal" mean variance npSqrt snr wr =
      Except.ok ⟨dim, ((List.range dim).map snr).map
        (fun c => mean + npSqrt variance * c)⟩ := by
  simp [RandomVector.init, hdim]

theorem init_wald {dim : Nat} (hdim : 0 < dim) (mean variance : ℚ)
    (npSqrt : ℚ → ℚ) (snr : Nat → ℚ) (wr : ℚ → ℚ → Nat → ℚ) :
    RandomVector.init dim "wald" mean variance npSqrt snr wr =
      Except.ok ⟨dim, ((List.range dim).map (wr 1 1)).map
        (fun c => mean + npSqrt variance * c)⟩ := by
  simp [RandomVector.init, hdim]

theorem init_unrecognized {dim : Nat} (hdim : 0 < dim) (distribution : String)
    (h1 : distribution ≠ "standard_normal") (h2 : distribution ≠ "wald")
    (mean variance : ℚ) (npSqrt : ℚ → ℚ) (snr : Nat → ℚ)
    (wr : ℚ → ℚ → Nat → ℚ) :
    RandomVector.init dim distribution mean variance npSqrt snr wr =
      Except.error PyErr.attributeError := by
  simp [RandomVector.init, hdim, h1, h2]

/-
Claims about the `RandomVector` constructor.
-/

/-- C1, counterexample: constructing with the unrecognized distribution name
`"uniform"` (dimension 3, mean 0, variance 1) does not complete silently: it
raises `AttributeError`, because the affine-transform line reads the
never-assigned `components` attribute. -/
theorem C1_counterexample :
    RandomVector.init 3 "uniform" 0 1 (fun q => q) (fun _ => 0)
        (fun _ _ _ => 0) = Except.error PyErr.attributeError := by
  simp [RandomVector.init]

/-- C1, amended: when `RandomVector` is constructed with a distribution name
outside `{"standard_normal", "wald"}`, the call does not complete: the final
affine-transform statement reads the unset `components` attribute and the
constructor raises `AttributeError`, for every dimension > 0 and any mean
and variance. -/
theorem C1_amended (dim : Nat) (hdim : 0 < dim) (distribution : String)
    (h1 : distribution ≠ "standard_normal") (h2 : distribution ≠ "wald")
    (mean variance : ℚ) (npSqrt : ℚ → ℚ) (snr : Nat → ℚ)
    (wr : ℚ → ℚ → Nat → ℚ) :
    RandomVector.init dim distribution mean variance npSqrt snr wr =
      Except.error PyErr.attributeError :=
  init_unrecognized hdim distribution h1 h2 mean variance npSqrt snr wr

/-- C1, amended, witness at dimension 2, name `"poisson"`, mean 5,
variance 7. -/
theorem C1_amended_witness :
    (0 : Nat) < 2 ∧ "poisson" ≠ "standard_normal" ∧ "poisson" ≠ "wald" ∧
      RandomVector.init 2 "poisson" 5 7 (fun q => q) (fun _ => 0)
          (fun _ _ _ => 0) = Except.error PyErr.attributeError :=
  ⟨by decide, by decide, by decide,
    C1_amended 2 (by decide) "poisson" (by decide) (by decide) 5 7
      (fun q => q) (fun _ => 0) (fun _ _ _ => 0)⟩

/-- C6: for every dimension > 0 and every recognized distribution name
(`"standard_normal"` or `"wald"`), any mean and variance, the constructor
succeeds and the constructed vector satisfies
`len(components) == dimension`; the structure is never mutated afterwards
(both derived operations are pure reads), so the invariant is preserved. -/
theorem C6_components_length (dim : Nat) (hdim : 0 < dim)
    (distribution : String)
    (hname : distribution = "standard_normal" ∨ distribution = "wald")
    (mean variance : ℚ) (npSqrt : ℚ → ℚ) (snr : Nat → ℚ)
    (wr : ℚ → ℚ → Nat → ℚ) :
    ∃ v, RandomVector.init dim distribution mean variance npSqrt snr wr =
        Except.ok v ∧ v.dim = dim ∧ v.components.length = dim := by
  rcases hname with h | h <;> subst h
  · exact ⟨_, init_standard_normal hdim mean variance npSqrt snr wr, rfl,
      by simp⟩
  · exact ⟨_, init_wald hdim mean variance npSqrt snr wr, rfl, by simp⟩

/-- C6, witness at dimension 4, name `"wald"`, mean 2, variance 3. -/
theorem C6_components_length_witness :
    (0 : Nat) < 4 ∧ ("wald" = "standard_normal" ∨ "wald" = "wald") ∧
      ∃ v, RandomVector.init 4 "wald" 2 3 (fun q => q) (fun _ => 0)
            (fun _ _ _ => 1) = Except.ok v ∧ v.dim = 4 ∧
          v.components.length = 4 :=
  ⟨by decide, Or.inr rfl,
    C6_components_length 4 (by decide) "wald" (Or.inr rfl) 2 3
      (fun q => q) (fun _ => 0) (fun _ _ _ => 1)⟩

/-- C7: for every dimension > 0, recognized name, mean and non-negative
variance, the components are exactly `dimension` i.i.d. raw draws from the
base distribution with its canonical parameters (`rng.standard_normal` for
the normal; `rng.wald(1, 1, ·)` — shape and location 1 — for Wald), each
mapped through the affine transform `y = mean + np.sqrt(variance) * raw`. -/
theorem C7_affine_transform (dim : Nat) (hdim : 0 < dim) (mean variance : ℚ)
    (hvar : 0 ≤ variance) (npSqrt : ℚ → ℚ) (snr : Nat → ℚ)
    (wr : ℚ → ℚ → Nat → ℚ) :
    RandomVector.init dim "standard_normal" mean variance npSqrt snr wr =
        Except.ok ⟨dim, ((List.range dim).map snr).map
          (fun raw => mean + npSqrt variance * raw)⟩ ∧
      RandomVector.init dim "wald" mean variance npSqrt snr wr =
        Except.ok ⟨dim, ((List.range dim).map (wr 1 1)).map
          (fun raw => mean + npSqrt variance * raw)⟩ :=
  ⟨init_standard_normal hdim mean variance npSqrt snr wr,
    init_wald hdim mean variance npSqrt snr wr⟩

/-- C7, witness at dimension 2, mean 3, variance 4, with the raw draw
streams `snr j = j` and `wr 1 1 j = j + 1` and `npSqrt = id`. -/
theorem C7_affine_transform_witness :
    (0 : Nat) < 2 ∧ (0 : ℚ) ≤ 4 ∧
      (RandomVector.init 2 "standard_normal" 3 4 (fun q => q)
          (fun j => (j : ℚ)) (fun _ _ j => (j : ℚ) + 1) =
        Except.ok ⟨2, ((List.range 2).map (fun j => (j : ℚ))).map
          (fun raw => 3 + (fun q : ℚ => q) 4 * raw)⟩ ∧
      RandomVector.init 2 "wald" 3 4 (fun q => q)
          (fun j => (j : ℚ)) (fun _ _ j => (j : ℚ) + 1) =
        Except.ok ⟨2, ((List.range 2).map
            ((fun _ _ j => (j : ℚ) + 1 : ℚ → ℚ → Nat → ℚ) 1 1)).map
          (fun raw => 3 + (fun q : ℚ => q) 4 * raw)⟩) :=
  ⟨by decide, by decide,
    C7_affine_transform 2 (by decide) 3 4 (by decide) (fun q => q)
      (fun j => (j : ℚ)) (fun _ _ j => (j : ℚ) + 1)⟩

/-- C8, counterexample: constructing with variance −1 (dimension 1, name
`"standard_normal"`, mean 0) does not fail: the constructor completes and
returns a vector.  No variance validation exists in the code; `np.sqrt` of
a negative float yields NaN with only a RuntimeWarning. -/
theorem C8_counterexample :
    RandomVector.init 1 "standard_normal" 0 (-1) (fun q => q) (fun _ => 0)
        (fun _ _ _ => 0) = Except.ok ⟨1, [0]⟩ := by
  simp [RandomVector.init]

/-- C8, amended: constructing a `RandomVector` with a negative variance is
not rejected: for every dimension > 0, recognized distribution name and any
mean, the constructor completes normally (returns a vector whose components
went through `mean + np.sqrt(variance) * raw`, NaN in numpy for negative
variance) — no `InvalidArgument` error is signaled. -/
theorem C8_amended (dim : Nat) (hdim : 0 < dim) (distribution : String)
    (hname : distribution = "standard_normal" ∨ distribution = "wald")
    (mean variance : ℚ) (hvar : variance < 0) (npSqrt : ℚ → ℚ)
    (snr : Nat → ℚ) (wr : ℚ → ℚ → Nat → ℚ) :
    ∃ v, RandomVector.init dim distribution mean variance npSqrt snr wr =
      Except.ok v := by
  rcases hname with h | h <;> subst h
  · exact ⟨_, init_standard_normal hdim mean variance npSqrt snr wr⟩
  · exact ⟨_, init_wald hdim mean variance npSqrt snr wr⟩

/-- C8, amended, witness at dimension 1, name `"standard_normal"`, mean 0,
variance −1. -/
theorem C8_amended_witness :
    (0 : Nat) < 1 ∧
      ("standard_normal" = "standard_normal" ∨
        "standard_normal" = "wald") ∧ (-1 : ℚ) < 0 ∧
      ∃ v, RandomVector.init 1 "standard_normal" 0 (-1) (fun q => q)
          (fun _ => 0) (fun _ _ _ => 0) = Except.ok v :=
  ⟨by decide, Or.inl rfl, by decide,
    C8_amended 1 (by decide) "standard_normal" (Or.inl rfl) 0 (-1)
      (by decide) (fun q => q) (fun _ => 0) (fun _ _ _ => 0)⟩

/-- C10: calling `square_norm_expectation` with `m = 0` passes no input
validation (the constructor is never invoked, the collected set of vectors
is empty) and the final division `sum(norms_squared)/m` raises
`ZeroDivisionError` — not an `InvalidArgument`-style error. -/
theorem C10_zero_samples (dim : Nat) (distribution : String)
    (mean variance : ℚ) (npSqrt : ℚ → ℚ) (snrs : Nat → Nat → ℚ)
    (wrs : Nat → ℚ → ℚ → Nat → ℚ) :
    square_norm_expectation 0 dim distribution mean variance npSqrt snrs
        wrs = Except.error PyErr.zeroDivisionError := by
  simp [square_norm_expectation]
  rfl

theorem mapM_ok {α β : Type} (f : α → Except PyErr β) (g : α → β) :
    ∀ l : List α, (∀ x ∈ l, f x = Except.ok (g x)) →
      l.mapM f = Except.ok (l.map g) := by
  intro l
  induction l with
  | nil => intro _; rfl
  | cons a t ih =>
    intro h
    rw [List.mapM_cons, h a (List.mem_cons_self a t),
      ih (fun x hx => h x (List.mem_cons_of_mem a hx))]
    rfl

theorem sum_map_range {β : Type} [AddCommMonoid β] (m : Nat) (g : Nat → β) :
    ((List.range m).map g).sum = ∑ i in Finset.range m, g i := by
  induction m with
  | zero => simp
  | succ t ih =>
    rw [List.range_succ, List.map_append, List.sum_append,
      Finset.sum_range_succ, ih]
    simp

/-- C4: for every positive sample count `m` (and parameters for which the
constructor succeeds, producing the vectors `v 0, …, v (m-1)`),
`square_norm_expectation` returns the arithmetic mean of the
`norm_squared()` values of the `m` drawn vectors — the sum divided by `m`.
In particular no drawn vector is lost in the `frozenset`: the `m` objects
are pairwise distinct Python objects (identity-based hashing), so the set
has exactly `m` elements. -/
theorem C4_mean_of_norms (m dim : Nat) (hm : 0 < m) (distribution : String)
    (mean variance : ℚ) (npSqrt : ℚ → ℚ) (snrs : Nat → Nat → ℚ)
    (wrs : Nat → ℚ → ℚ → Nat → ℚ) (v : Nat → RandomVector)
    (hv : ∀ i, i < m →
      RandomVector.init dim distribution mean variance npSqrt (snrs i)
        (wrs i) = Except.ok (v i)) :
    square_norm_expectation m dim distribution mean variance npSqrt snrs
        wrs =
      Except.ok ((∑ i in Finset.range m, (v i).norm_squared) / m) := by
  have hobjs : (List.range m).mapM (fun i =>
      (RandomVector.init dim distribution mean variance npSqrt (snrs i)
        (wrs i)).map (fun w => (i, w))) =
      Except.ok ((List.range m).map (fun i => (i, v i))) := by
    apply mapM_ok
    intro i hi
    rw [hv i (List.mem_range.mp hi)]
    rfl
  have hnodup : ((List.range m).map (fun i => (i, v i))).Nodup :=
    (List.nodup_range m).map (fun a b hab => congrArg Prod.fst hab)
  have hsum : (∑ o in ((List.range m).map
        (fun i => (i, v i))).toFinset, o.2.norm_squared) =
      ∑ i in Finset.range m, (v i).norm_squared := by
    rw [List.sum_toFinset _ hnodup, List.map_map]
    exact sum_map_range m _
  simp only [square_norm_expectation, hobjs]
  rw [if_neg (Nat.pos_iff_ne_zero.mp hm)]
  exact congrArg Except.ok (congrArg (· / (m : ℚ)) hsum)

/-- C4, witness: two samples in dimension 1, standard normal, mean 0,
variance 1, raw streams constantly 0, `npSqrt = id`. -/
theorem C4_mean_of_norms_witness :
    (0 : Nat) < 2 ∧
      (∀ i, i < 2 →
        RandomVector.init 1 "standard_normal" 0 1 (fun q => q)
            ((fun _ _ => 0 : Nat → Nat → ℚ) i)
            ((fun _ _ _ _ => 0 : Nat → ℚ → ℚ → Nat → ℚ) i) =
          Except.ok ⟨1, [0]⟩) ∧
      square_norm_expectation 2 1 "standard_normal" 0 1 (fun q => q)
          (fun _ _ => 0) (fun _ _ _ _ => 0) =
        Except.ok ((∑ i in Finset.range 2,
          ((fun _ => ⟨1, [0]⟩ : Nat → RandomVector) i).norm_squared) / 2) :=
  ⟨by decide, fun i _ => by simp [RandomVector.init],
    C4_mean_of_norms 2 1 (by decide) "standard_normal" 0 1 (fun q => q)
      (fun _ _ => 0) (fun _ _ _ _ => 0) (fun _ => ⟨1, [0]⟩)
      (fun i _ => by simp [RandomVector.init])⟩

theorem stick_fold_inv {m : Nat} (u : Nat → ℚ)
    (hu : ∀ j, 0 ≤ u j ∧ u j ≤ 1) :
    ∀ (l : List (Fin m)) (c : Fin m → ℚ) (a : ℚ) (t : Nat),
      l.Nodup → (∀ i ∈ l, c i = 0) → 0 ≤ a → (∀ i, 0 ≤ c i) →
      0 ≤ (l.foldl (stickStep u) (c, a, t)).2.1 ∧
      (∀ i, i ∉ l → (l.foldl (stickStep u) (c, a, t)).1 i = c i) ∧
      (∀ i, 0 ≤ (l.foldl (stickStep u) (c, a, t)).1 i) ∧
      (∑ i, (l.foldl (stickStep u) (c, a, t)).1 i) +
        (l.foldl (stickStep u) (c, a, t)).2.1 = (∑ i, c i) + a := by
  intro l
  induction l with
  | nil =>
    intro c a t _ _ ha hc
    exact ⟨ha, fun i _ => rfl, hc, rfl⟩
  | cons i0 tl ih =>
    intro c a t hnd hzero ha hc
    have hnd' : tl.Nodup := (List.nodup_cons.mp hnd).2
    have hi0 : i0 ∉ tl := (List.nodup_cons.mp hnd).1
    have hdraw : 0 ≤ u t * a := mul_nonneg (hu t).1 ha
    have ha' : 0 ≤ a - u t * a := by
      have := (hu t).2
      nlinarith
    have hzero' : ∀ i ∈ tl, Function.update c i0 (u t * a) i = 0 := by
      intro i hi
      have hne : i ≠ i0 := fun h => hi0 (h ▸ hi)
      rw [Function.update_noteq hne]
      exact hzero i (List.mem_cons_of_mem i0 hi)
    have hc' : ∀ i, 0 ≤ Function.update c i0 (u t * a) i := by
      intro i
      by_cases h : i = i0
      · subst h; rw [Function.update_same]; exact hdraw
      · rw [Function.update_noteq h]; exact hc i
    have step_eq : (i0 :: tl).foldl (stickStep u) (c, a, t) =
        tl.foldl (stickStep u)
          (Function.update c i0 (u t * a), a - u t * a, t + 1) := rfl
    obtain ⟨h1, h2, h3, h4⟩ := ih (Function.update c i0 (u t * a))
      (a - u t * a) (t + 1) hnd' hzero' ha' hc'
    rw [step_eq]
    refine ⟨h1, ?_, h3, ?_⟩
    · intro i hi
      have hit : i ∉ tl := fun h => hi (List.mem_cons_of_mem i0 h)
      have hne : i ≠ i0 := fun h => hi (h ▸ List.mem_cons_self i0 tl)
      rw [h2 i hit, Function.update_noteq hne]
    · rw [h4]
      have hupd : (∑ j, Function.update c i0 (u t * a) j) =
          (∑ j, c j) + u t * a := by
        rw [Finset.sum_update_of_mem (Finset.mem_univ i0),
          Finset.sum_eq_sum_diff_singleton_add (Finset.mem_univ i0) c,
          hzero i0 (List.mem_cons_self i0 tl)]
        ring
      rw [hupd]
      ring

/-- C3: for every `m ≥ 1`, every permutation `perm` of `0,…,m-1`, and every
possible sequence of uniform draws (fractions `u j ∈ [0,1]` of the
remaining mass), the stick-breaking cell produces `m` non-negative
coefficients whose sum is exactly 1 — hence also within the floating-point
tolerance `|sum − 1| < 10⁻⁹` stated by the spec. -/
theorem C3_simplex_weights (m : Nat) (hm : 1 ≤ m) (perm : List (Fin m))
    (hperm : perm.Perm (List.finRange m)) (u : Nat → ℚ)
    (hu : ∀ j, 0 ≤ u j ∧ u j ≤ 1) :
    (∀ i, 0 ≤ coefficients m perm u i) ∧
      (∑ i, coefficients m perm u i) = 1 ∧
      |(∑ i, coefficients m perm u i) - 1| < 1 / 1000000000 := by
  have hlen : perm.length = m := by
    rw [hperm.length_eq, List.length_finRange]
  have hne : perm ≠ [] := by
    intro h
    rw [h] at hlen
    simp at hlen
    omega
  have hnd : perm.Nodup := hperm.symm.nodup (List.nodup_finRange m)
  set iLast := perm.getLast hne with hiLast
  have hdecomp : perm.dropLast ++ [iLast] = perm :=
    List.dropLast_append_getLast hne
  have hndl : perm.dropLast.Nodup := by
    have := hdecomp ▸ hnd
    exact (List.nodup_append.mp this).1
  have hnotmem : iLast ∉ perm.dropLast := by
    have h := hdecomp ▸ hnd
    have hd := (List.nodup_append.mp h).2.2
    intro hmem
    exact hd hmem (List.mem_singleton_self iLast)
  obtain ⟨h1, h2, h3, h4⟩ := stick_fold_inv u hu perm.dropLast
    (fun _ => 0) 1 0 hndl (fun _ _ => rfl) (by norm_num) (fun _ => le_refl 0)
  set st := perm.dropLast.foldl (stickStep u) (fun _ => 0, 1, 0) with hst
  have hco : coefficients m perm u = Function.update st.1 iLast st.2.1 := by
    rw [coefficients, List.getLast?_eq_getLast perm hne, ← hiLast, ← hst]
  have hlast0 : st.1 iLast = 0 := h2 iLast hnotmem
  have hnonneg : ∀ i, 0 ≤ coefficients m perm u i := by
    intro i
    rw [hco]
    by_cases h : i = iLast
    · subst h; rw [Function.update_same]; exact h1
    · rw [Function.update_noteq h]; exact h3 i
  have hsum : (∑ i, coefficients m perm u i) = 1 := by
    have htot : (∑ i, st.1 i) + st.2.1 = 1 := by
      rw [h4]
      simp
    have hsplit : (∑ i, st.1 i) =
        (∑ x in Finset.univ \ {iLast}, st.1 x) + st.1 iLast :=
      Finset.sum_eq_sum_diff_singleton_add (Finset.mem_univ iLast) st.1
    rw [hsplit, hlast0] at htot
    rw [hco, Finset.sum_update_of_mem (Finset.mem_univ iLast)]
    linarith
  exact ⟨hnonneg, hsum, by rw [hsum]; norm_num⟩

/-- C3, witness at `m = 3`, the identity permutation and the constant
fraction 1/2 (draws: 1/2, then 1/4; last coefficient 1/4). -/
theorem C3_simplex_weights_witness :
    1 ≤ 3 ∧ (List.finRange 3).Perm (List.finRange 3) ∧
      (∀ j : Nat, 0 ≤ ((1 : ℚ) / 2) ∧ ((1 : ℚ) / 2) ≤ 1) ∧
      ((∀ i, 0 ≤ coefficients 3 (List.finRange 3) (fun _ => 1 / 2) i) ∧
        (∑ i, coefficients 3 (List.finRange 3) (fun _ => 1 / 2) i) = 1 ∧
        |(∑ i, coefficients 3 (List.finRange 3) (fun _ => 1 / 2) i) - 1| <
          1 / 1000000000) :=
  ⟨by decide, List.Perm.refl _, fun _ => ⟨by norm_num, by norm_num⟩,
    C3_simplex_weights 3 (by decide) (List.finRange 3) (List.Perm.refl _)
      (fun _ => 1 / 2) (fun _ => ⟨by norm_num, by norm_num⟩)⟩

theorem trial_loop_zero {m n : Nat} (T : Fin m → Fin n → ℚ) (x : Fin n → ℚ)
    (k : Nat) (draws : Nat → Fin k → Fin m) :
    trial_loop T x k 0 draws = ([], ⊤, none) := rfl

theorem trial_loop_succ {m n : Nat} (T : Fin m → Fin n → ℚ) (x : Fin n → ℚ)
    (k : Nat) (draws : Nat → Fin k → Fin m) (tc : Nat) :
    trial_loop T x k (tc + 1) draws =
      (if ((sample_from_distribution T x k (draws tc)).1 : WithTop ℚ) <
          (trial_loop T x k tc draws).2.1 then
        ((trial_loop T x k tc draws).1 ++
            [(sample_from_distribution T x k (draws tc)).1],
          ((sample_from_distribution T x k (draws tc)).1 : WithTop ℚ),
          some (sample_from_distribution T x k (draws tc)).2)
      else
        ((trial_loop T x k tc draws).1 ++
            [(sample_from_distribution T x k (draws tc)).1],
          (trial_loop T x k tc draws).2.1,
          (trial_loop T x k tc draws).2.2)) := by
  simp only [trial_loop, List.range_succ, List.foldl_append, List.foldl_cons,
    List.foldl_nil]
  by_cases h : ((sample_from_distribution T x k (draws tc)).1 : WithTop ℚ) <
      ((List.range tc).foldl
        (fun st i =>
          let s := sample_from_distribution T x k (draws i)
          let upd : WithTop ℚ × Option (List (Fin n → ℚ)) :=
            if (s.1 : WithTop ℚ) < st.2.1 then ((s.1 : WithTop ℚ), some s.2)
            else (st.2.1, st.2.2)
          (st.1 ++ [s.1], upd.1, upd.2))
        ([], ⊤, none)).2.1
  · rw [if_pos h, if_pos h]
  · rw [if_neg h, if_neg h]

/-- C5: after a trial loop of `trial_count ≥ 1` iterations, the recorded
distance list has exactly `trial_count` entries (it is the list of all
trial distances in order), the returned best value is the minimum of that
list, the returned best trial is the draw achieving that minimum, and —
because the best pair is replaced only on a strictly smaller distance — the
retained best trial is the earliest one attaining the minimum (every
earlier trial has a strictly larger distance). -/
theorem C5_trial_loop {m n : Nat} (T : Fin m → Fin n → ℚ) (x : Fin n → ℚ)
    (k : Nat) (draws : Nat → Fin k → Fin m) (trial_count : Nat)
    (hc : 1 ≤ trial_count) :
    ∃ i0, i0 < trial_count ∧
      trial_loop T x k trial_count draws =
        ((List.range trial_count).map
            (fun i => (sample_from_distribution T x k (draws i)).1),
          ((List.range trial_count).map
            (fun i => (sample_from_distribution T x k (draws i)).1)).minimum,
          some (sample_from_distribution T x k (draws i0)).2) ∧
      ((sample_from_distribution T x k (draws i0)).1 : WithTop ℚ) =
        ((List.range trial_count).map
          (fun i => (sample_from_distribution T x k (draws i)).1)).minimum ∧
      ∀ j, j < i0 → (sample_from_distribution T x k (draws i0)).1 <
        (sample_from_distribution T x k (draws j)).1 := by
  induction trial_count, hc using Nat.le_induction with
  | base =>
    refine ⟨0, Nat.zero_lt_one, ?_, ?_, fun j hj => absurd hj (Nat.not_lt_zero j)⟩
    · rw [trial_loop_succ, trial_loop_zero]
      simp only [List.range_succ, List.range_zero, List.nil_append,
        List.map_cons, List.map_nil, List.minimum_singleton]
      rw [if_pos (WithTop.coe_lt_top _)]
    · simp only [List.range_succ, List.range_zero, List.nil_append,
        List.map_cons, List.map_nil, List.minimum_singleton]
  | succ tc htc ih =>
    obtain ⟨i0, hi0, hloop, hmin, hfirst⟩ := ih
    have hrange : (List.range (tc + 1)).map
        (fun i => (sample_from_distribution T x k (draws i)).1) =
        ((List.range tc).map
          (fun i => (sample_from_distribution T x k (draws i)).1)) ++
        [(sample_from_distribution T x k (draws tc)).1] := by
      rw [List.range_succ, List.map_append, List.map_cons, List.map_nil]
    by_cases h : ((sample_from_distribution T x k (draws tc)).1 : WithTop ℚ) <
        ((List.range tc).map
          (fun i => (sample_from_distribution T x k (draws i)).1)).minimum
    · refine ⟨tc, Nat.lt_succ_self tc, ?_, ?_, ?_⟩
      · rw [trial_loop_succ, hloop, if_pos h, hrange, List.minimum_concat,
          min_eq_right (le_of_lt h)]
      · rw [hrange, List.minimum_concat, min_eq_right (le_of_lt h)]
      · intro j hj
        have hmem : (sample_from_distribution T x k (draws j)).1 ∈
            (List.range tc).map
              (fun i => (sample_from_distribution T x k (draws i)).1) :=
          List.mem_map.mpr ⟨j, List.mem_range.mpr hj, rfl⟩
        have hle := List.minimum_le_of_mem' hmem
        exact_mod_cast lt_of_lt_of_le h hle
    · refine ⟨i0, Nat.lt_succ_of_lt hi0, ?_, ?_, hfirst⟩
      · rw [trial_loop_succ, hloop, if_neg h, hrange, List.minimum_concat,
          min_eq_left (not_lt.mp h)]
      · rw [hrange, List.minimum_concat, min_eq_left (not_lt.mp h), hmin]

/-- A concrete one-point instance used to witness the trial-loop theorem:
one point `(0) ∈ ℚ¹`, target `(0)`, constant draw stream. -/
def oneT : Fin 1 → Fin 1 → ℚ := fun _ _ => 0

/-- Target point of the one-point witness instance. -/
def onex : Fin 1 → ℚ := fun _ => 0

/-- Draw stream of the one-point witness instance. -/
def oneDraws : Nat → Fin 1 → Fin 1 := fun _ _ => 0

/-- C5, witness: the one-point instance with `k = 1` and 2 trials; both
distances are 0 and the loop keeps trial 0. -/
theorem C5_trial_loop_witness :
    1 ≤ 2 ∧
      ∃ i0, i0 < 2 ∧
        trial_loop oneT onex 1 2 oneDraws =
          ((List.range 2).map (fun i =>
              (sample_from_distribution oneT onex 1 (oneDraws i)).1),
            ((List.range 2).map (fun i =>
              (sample_from_distribution oneT onex 1 (oneDraws i)).1)).minimum,
            some (sample_from_distribution oneT onex 1 (oneDraws i0)).2) ∧
        ((sample_from_distribution oneT onex 1 (oneDraws i0)).1 :
            WithTop ℚ) =
          ((List.range 2).map (fun i =>
            (sample_from_distribution oneT onex 1 (oneDraws i)).1)).minimum ∧
        ∀ j, j < i0 →
          (sample_from_distribution oneT onex 1 (oneDraws i0)).1 <
          (sample_from_distribution oneT onex 1 (oneDraws j)).1 :=
  ⟨by decide, C5_trial_loop oneT onex 1 oneDraws 2 (by decide)⟩

/-
Finite-probability computations for the expectation of the trial distance:
the draw sequences `d : Fin k → Fin m` carry probability `∏ j, w (d j)`,
and the two marginalization lemmas below are the independence facts the
proof of the Carathéodory bound needs.
-/

theorem sum_prod_eval {k m : Nat} (F : Fin k → Fin m → ℚ) :
    ∑ d : Fin k → Fin m, ∏ j, F j (d j) = ∏ j, ∑ i, F j i := by
  rw [Finset.prod_univ_sum, Fintype.piFinset_univ]

theorem prod_ite_single {k : Nat} (j0 : Fin k) (h : Fin k → ℚ) :
    (∏ j, if j = j0 then h j else 1) = h j0 := by
  rw [Finset.prod_ite_eq' Finset.univ j0 h]
  simp

theorem marg_single {k m : Nat} (w : Fin m → ℚ) (hw1 : ∑ i, w i = 1)
    (j0 : Fin k) (h : Fin m → ℚ) :
    ∑ d : Fin k → Fin m, (∏ j, w (d j)) * h (d j0) = ∑ i, w i * h i := by
  have key : ∀ d : Fin k → Fin m, (∏ j, w (d j)) * h (d j0) =
      ∏ j, (w (d j) * (if j = j0 then h (d j) else 1)) := by
    intro d
    rw [Finset.prod_mul_distrib, prod_ite_single j0 (fun j => h (d j))]
  calc ∑ d : Fin k → Fin m, (∏ j, w (d j)) * h (d j0)
      = ∑ d : Fin k → Fin m,
          ∏ j, (w (d j) * (if j = j0 then h (d j) else 1)) :=
        Finset.sum_congr rfl (fun d _ => key d)
    _ = ∏ j, ∑ i, w i * (if j = j0 then h i else 1) :=
        sum_prod_eval (fun j i => w i * (if j = j0 then h i else 1))
    _ = ∏ j, (if j = j0 then ∑ i, w i * h i else 1) := by
        refine Finset.prod_congr rfl (fun j _ => ?_)
        by_cases hj : j = j0
        · simp [hj]
        · simp [hj, hw1]
    _ = ∑ i, w i * h i := prod_ite_single j0 (fun _ => ∑ i, w i * h i)

theorem marg_pair {k m : Nat} (w : Fin m → ℚ) (hw1 : ∑ i, w i = 1)
    (j0 j1 : Fin k) (hne : j0 ≠ j1) (f g : Fin m → ℚ) :
    ∑ d : Fin k → Fin m, (∏ j, w (d j)) * f (d j0) * g (d j1) =
      (∑ i, w i * f i) * (∑ i, w i * g i) := by
  have key : ∀ d : Fin k → Fin m, (∏ j, w (d j)) * f (d j0) * g (d j1) =
      ∏ j, (w (d j) * (if j = j0 then f (d j) else 1) *
        (if j = j1 then g (d j) else 1)) := by
    intro d
    rw [Finset.prod_mul_distrib, Finset.prod_mul_distrib,
      prod_ite_single j0 (fun j => f (d j)),
      prod_ite_single j1 (fun j => g (d j))]
  calc ∑ d : Fin k → Fin m, (∏ j, w (d j)) * f (d j0) * g (d j1)
      = ∑ d : Fin k → Fin m,
          ∏ j, (w (d j) * (if j = j0 then f (d j) else 1) *
            (if j = j1 then g (d j) else 1)) :=
        Finset.sum_congr rfl (fun d _ => key d)
    _ = ∏ j, ∑ i, (w i * (if j = j0 then f i else 1) *
          (if j = j1 then g i else 1)) :=
        sum_prod_eval (fun j i => w i * (if j = j0 then f i else 1) *
          (if j = j1 then g i else 1))
    _ = ∏ j, ((if j = j0 then ∑ i, w i * f i else 1) *
          (if j = j1 then ∑ i, w i * g i else 1)) := by
        refine Finset.prod_congr rfl (fun j _ => ?_)
        by_cases h0 : j = j0
        · have h1 : j ≠ j1 := h0 ▸ hne
          simp [h0, h1, hne]
        · by_cases h1 : j = j1
          · simp [h0, h1, Ne.symm hne]
          · simp [h0, h1, hw1]
    _ = (∑ i, w i * f i) * (∑ i, w i * g i) := by
        rw [Finset.prod_mul_distrib,
          prod_ite_single j0 (fun _ => ∑ i, w i * f i),
          prod_ite_single j1 (fun _ => ∑ i, w i * g i)]

theorem dist_eq {m n : Nat} (T : Fin m → Fin n → ℚ) (x : Fin n → ℚ)
    (k : Nat) (hk : 0 < k) (d : Fin k → Fin m) :
    (sample_from_distribution T x k d).1 =
      (∑ c, (∑ j, (x c - T (d j) c)) ^ 2) / (k : ℚ) ^ 2 := by
  have hkQ : (k : ℚ) ≠ 0 := Nat.cast_ne_zero.mpr (Nat.pos_iff_ne_zero.mp hk)
  show (∑ c, (x c - (∑ j, T (d j) c) / (k : ℚ)) ^ 2) = _
  rw [Finset.sum_div]
  refine Finset.sum_congr rfl (fun c _ => ?_)
  have hpt : x c - (∑ j, T (d j) c) / (k : ℚ) =
      (∑ j, (x c - T (d j) c)) / (k : ℚ) := by
    rw [Finset.sum_sub_distrib, Finset.sum_const, Finset.card_univ,
      Fintype.card_fin, nsmul_eq_mul]
    field_simp
    ring
  rw [hpt, div_pow]

theorem expected_eq {m n : Nat} (T : Fin m → Fin n → ℚ) (w : Fin m → ℚ)
    (x : Fin n → ℚ) (k : Nat) (hk : 0 < k) (hw1 : ∑ i, w i = 1)
    (hx : ∀ c, x c = ∑ i, w i * T i c) :
    expected_sq_distance T w x k = (∑ i, w i * sqDist x (T i)) / k := by
  have hkQ : (k : ℚ) ≠ 0 := Nat.cast_ne_zero.mpr (Nat.pos_iff_ne_zero.mp hk)
  have hzero : ∀ c, ∑ i, w i * (x c - T i c) = 0 := by
    intro c
    calc ∑ i, w i * (x c - T i c)
        = ∑ i, (w i * x c - w i * T i c) :=
          Finset.sum_congr rfl (fun i _ => by ring)
      _ = (∑ i, w i * x c) - ∑ i, w i * T i c := Finset.sum_sub_distrib
      _ = (∑ i, w i) * x c - ∑ i, w i * T i c := by rw [Finset.sum_mul]
      _ = 0 := by rw [hw1, ← hx c]; ring
  have inner_moment : ∀ c,
      (∑ d : Fin k → Fin m,
        (∏ j, w (d j)) * (∑ j, (x c - T (d j) c)) ^ 2) =
      (k : ℚ) * ∑ i, w i * (x c - T i c) ^ 2 := by
    intro c
    have off_diag : ∀ j : Fin k, ∀ l ∈ (Finset.univ : Finset (Fin k)),
        l ≠ j → (∑ d : Fin k → Fin m,
          (∏ j', w (d j')) * ((x c - T (d j) c) * (x c - T (d l) c))) = 0 := by
      intro j l _ hlj
      have hassoc : (∑ d : Fin k → Fin m,
          (∏ j', w (d j')) * ((x c - T (d j) c) * (x c - T (d l) c))) =
          ∑ d : Fin k → Fin m,
            (∏ j', w (d j')) * (x c - T (d j) c) * (x c - T (d l) c) :=
        Finset.sum_congr rfl (fun d _ => by ring)
      rw [hassoc, marg_pair w hw1 j l (Ne.symm hlj) (fun i => x c - T i c)
        (fun i => x c - T i c), hzero c, zero_mul]
    calc (∑ d : Fin k → Fin m,
          (∏ j, w (d j)) * (∑ j, (x c - T (d j) c)) ^ 2)
        = ∑ d : Fin k → Fin m, ∑ j, ∑ l,
            (∏ j', w (d j')) * ((x c - T (d j) c) * (x c - T (d l) c)) := by
          refine Finset.sum_congr rfl (fun d _ => ?_)
          rw [sq, Finset.sum_mul_sum, Finset.mul_sum]
          exact Finset.sum_congr rfl (fun j _ => Finset.mul_sum _ _ _)
      _ = ∑ j, ∑ d : Fin k → Fin m, ∑ l,
            (∏ j', w (d j')) * ((x c - T (d j) c) * (x c - T (d l) c)) :=
          Finset.sum_comm
      _ = ∑ j, ∑ l, ∑ d : Fin k → Fin m,
            (∏ j', w (d j')) * ((x c - T (d j) c) * (x c - T (d l) c)) :=
          Finset.sum_congr rfl (fun j _ => Finset.sum_comm)
      _ = ∑ _j : Fin k, ∑ i, w i * (x c - T i c) ^ 2 := by
          refine Finset.sum_congr rfl (fun j _ => ?_)
          rw [Finset.sum_eq_single_of_mem j (Finset.mem_univ j) (off_diag j)]
          have hsq : (∑ d : Fin k → Fin m,
              (∏ j', w (d j')) * ((x c - T (d j) c) * (x c - T (d j) c))) =
              ∑ d : Fin k → Fin m,
                (∏ j', w (d j')) * (x c - T (d j) c) ^ 2 :=
            Finset.sum_congr rfl (fun d _ => by ring)
          rw [hsq]
          exact marg_single w hw1 j (fun i => (x c - T i c) ^ 2)
      _ = (k : ℚ) * ∑ i, w i * (x c - T i c) ^ 2 := by
          rw [Finset.sum_const, Finset.card_univ, Fintype.card_fin,
            nsmul_eq_mul]
  calc expected_sq_distance T w x k
      = ∑ d : Fin k → Fin m, (∏ j, w (d j)) *
          ((∑ c, (∑ j, (x c - T (d j) c)) ^ 2) / (k : ℚ) ^ 2) :=
        Finset.sum_congr rfl (fun d _ => by rw [dist_eq T x k hk d])
    _ = ∑ d : Fin k → Fin m,
          (∑ c, (∏ j, w (d j)) * (∑ j, (x c - T (d j) c)) ^ 2) /
            (k : ℚ) ^ 2 := by
        refine Finset.sum_congr rfl (fun d _ => ?_)
        rw [mul_div_assoc', Finset.mul_sum]
    _ = (∑ d : Fin k → Fin m,
          ∑ c, (∏ j, w (d j)) * (∑ j, (x c - T (d j) c)) ^ 2) /
            (k : ℚ) ^ 2 := by
        rw [Finset.sum_div]
    _ = (∑ c, ∑ d : Fin k → Fin m,
          (∏ j, w (d j)) * (∑ j, (x c - T (d j) c)) ^ 2) / (k : ℚ) ^ 2 := by
        rw [Finset.sum_comm]
    _ = (∑ c, (k : ℚ) * ∑ i, w i * (x c - T i c) ^ 2) / (k : ℚ) ^ 2 := by
        rw [Finset.sum_congr rfl (fun c _ => inner_moment c)]
    _ = ((k : ℚ) * ∑ i, w i * sqDist x (T i)) / (k : ℚ) ^ 2 := by
        rw [← Finset.mul_sum, Finset.sum_comm]
        have : ∀ i, ∑ c, w i * (x c - T i c) ^ 2 = w i * sqDist x (T i) := by
          intro i
          rw [sqDist, Finset.mul_sum]
        rw [Finset.sum_congr rfl (fun i _ => this i)]
    _ = (∑ i, w i * sqDist x (T i)) / k := by
        field_simp
        ring

theorem weighted_jensen {m : Nat} (w a : Fin m → ℚ) (hw0 : ∀ i, 0 ≤ w i)
    (hw1 : ∑ i, w i = 1) :
    (∑ i, w i * a i) ^ 2 ≤ ∑ i, w i * a i ^ 2 := by
  have expand : (∑ i, w i * a i) ^ 2 =
      ∑ i, ∑ j, (w i * a i) * (w j * a j) := by
    rw [sq, Finset.sum_mul_sum]
  have step1 : (∑ i, ∑ j, (w i * a i) * (w j * a j)) ≤
      ∑ i, ∑ j, w i * w j * (a i ^ 2 + a j ^ 2) / 2 := by
    refine Finset.sum_le_sum (fun i _ => Finset.sum_le_sum (fun j _ => ?_))
    nlinarith [sq_nonneg (a i - a j), mul_nonneg (hw0 i) (hw0 j)]
  have step2 : (∑ i, ∑ j, w i * w j * (a i ^ 2 + a j ^ 2) / 2) =
      ∑ i, w i * a i ^ 2 := by
    have hrow : ∀ i, (∑ j, w i * w j * (a i ^ 2 + a j ^ 2) / 2) =
        (w i * a i ^ 2) / 2 + (w i * (∑ j, w j * a j ^ 2)) / 2 := by
      intro i
      calc (∑ j, w i * w j * (a i ^ 2 + a j ^ 2) / 2)
          = ∑ j, ((w i * a i ^ 2) / 2 * w j + w i / 2 * (w j * a j ^ 2)) :=
            Finset.sum_congr rfl (fun j _ => by ring)
        _ = (w i * a i ^ 2) / 2 * (∑ j, w j) +
            w i / 2 * (∑ j, w j * a j ^ 2) := by
            rw [Finset.sum_add_distrib, ← Finset.mul_sum, ← Finset.mul_sum]
        _ = (w i * a i ^ 2) / 2 + (w i * (∑ j, w j * a j ^ 2)) / 2 := by
            rw [hw1]
            ring
    rw [Finset.sum_congr rfl (fun i _ => hrow i), Finset.sum_add_distrib]
    have hA : (∑ i, (w i * a i ^ 2) / 2) = (∑ i, w i * a i ^ 2) / 2 := by
      rw [Finset.sum_div]
    have hB : (∑ i, (w i * (∑ j, w j * a j ^ 2)) / 2) =
        (∑ j, w j * a j ^ 2) / 2 := by
      rw [← Finset.sum_div, ← Finset.sum_mul, hw1, one_mul]
    rw [hA, hB]
    ring
  calc (∑ i, w i * a i) ^ 2 = ∑ i, ∑ j, (w i * a i) * (w j * a j) := expand
    _ ≤ ∑ i, ∑ j, w i * w j * (a i ^ 2 + a j ^ 2) / 2 := step1
    _ = ∑ i, w i * a i ^ 2 := step2

theorem diamSq_nonneg {m n : Nat} (T : Fin m → Fin n → ℚ) :
    0 ≤ diamSqT T :=
  (Finset.le_fold_max _).mpr (Or.inl (le_refl 0))

theorem sqDist_comm {n : Nat} (u v : Fin n → ℚ) : sqDist u v = sqDist v u :=
  Finset.sum_congr rfl (fun c _ => by ring)

theorem sqDist_le_diamSq {m n : Nat} (T : Fin m → Fin n → ℚ)
    (i j : Fin m) : sqDist (T i) (T j) ≤ diamSqT T := by
  rcases lt_trichotomy i j with h | h | h
  · exact (Finset.le_fold_max _).mpr (Or.inr ⟨(i, j),
      Finset.mem_filter.mpr ⟨Finset.mem_univ _, h⟩, le_refl _⟩)
  · subst h
    have hz : sqDist (T i) (T i) = 0 := by
      simp [sqDist]
    rw [hz]
    exact diamSq_nonneg T
  · rw [sqDist_comm]
    exact (Finset.le_fold_max _).mpr (Or.inr ⟨(j, i),
      Finset.mem_filter.mpr ⟨Finset.mem_univ _, h⟩, le_refl _⟩)

theorem avg_sqDist_le_diamSq {m n : Nat} (T : Fin m → Fin n → ℚ)
    (w : Fin m → ℚ) (x : Fin n → ℚ) (hw0 : ∀ i, 0 ≤ w i)
    (hw1 : ∑ i, w i = 1) (hx : ∀ c, x c = ∑ i, w i * T i c) :
    (∑ i, w i * sqDist x (T i)) ≤ diamSqT T := by
  have hper : ∀ i, sqDist x (T i) ≤ diamSqT T := by
    intro i
    have hx' : ∀ c, x c - T i c = ∑ j, w j * (T j c - T i c) := by
      intro c
      calc x c - T i c = (∑ j, w j * T j c) - T i c := by rw [hx c]
        _ = (∑ j, w j * T j c) - (∑ j, w j) * T i c := by rw [hw1, one_mul]
        _ = ∑ j, w j * (T j c - T i c) := by
            rw [Finset.sum_mul, ← Finset.sum_sub_distrib]
            exact Finset.sum_congr rfl (fun j _ => by ring)
    calc sqDist x (T i) = ∑ c, (∑ j, w j * (T j c - T i c)) ^ 2 :=
          Finset.sum_congr rfl (fun c _ => by rw [hx' c])
      _ ≤ ∑ c, ∑ j, w j * (T j c - T i c) ^ 2 :=
          Finset.sum_le_sum (fun c _ =>
            weighted_jensen w (fun j => T j c - T i c) hw0 hw1)
      _ = ∑ j, w j * sqDist (T j) (T i) := by
          rw [Finset.sum_comm]
          exact Finset.sum_congr rfl
            (fun j _ => (Finset.mul_sum _ _ _).symm)
      _ ≤ ∑ j, w j * diamSqT T :=
          Finset.sum_le_sum (fun j _ =>
            mul_le_mul_of_nonneg_left (sqDist_le_diamSq T j i) (hw0 j))
      _ = diamSqT T := by rw [← Finset.sum_mul, hw1, one_mul]
  calc (∑ i, w i * sqDist x (T i)) ≤ ∑ i, w i * diamSqT T :=
        Finset.sum_le_sum (fun i _ =>
          mul_le_mul_of_nonneg_left (hper i) (hw0 i))
    _ = diamSqT T := by rw [← Finset.sum_mul, hw1, one_mul]

/-- C2: for every finite point set `T` in `ℚ^n`, non-negative weights `w`
summing to 1, target `x = ∑ i, w i • T i` and `k ≥ 1`, the expectation of
the squared distance returned by `sample_from_distribution` (over the `k`
i.i.d. weighted draws) is at most `diam(T)² / k`, where `diam(T)²` — the
square of the maximal pairwise Euclidean distance — is the maximum pairwise
squared distance `diamSqT T` computed by the `diamT` cell. -/
theorem C2_expectation_bound {m n : Nat} (T : Fin m → Fin n → ℚ)
    (w : Fin m → ℚ) (x : Fin n → ℚ) (k : Nat) (hk : 1 ≤ k)
    (hw0 : ∀ i, 0 ≤ w i) (hw1 : ∑ i, w i = 1)
    (hx : ∀ c, x c = ∑ i, w i * T i c) :
    expected_sq_distance T w x k ≤ diamSqT T / k := by
  have hkpos : (0 : ℚ) < k := by
    exact_mod_cast Nat.lt_of_lt_of_le Nat.zero_lt_one hk
  rw [expected_eq T w x k (Nat.lt_of_lt_of_le Nat.zero_lt_one hk) hw1 hx]
  exact (div_le_div_iff_of_pos_right hkpos).mpr
    (avg_sqDist_le_diamSq T w x hw0 hw1 hx)

/-- The example point set of the Carathéodory notebook,
`T = [(1,0,0), (0,1,0), (0,0,1), (0,0,0)]`: point `i` has a 1 in
coordinate `i` for `i < 3`, and point 3 is the origin. -/
def caraT : Fin 4 → Fin 3 → ℚ := fun i c =>
  if (i : Nat) = (c : Nat) then 1 else 0

/-- Uniform weights on the four example points. -/
def caraW : Fin 4 → ℚ := fun _ => 1 / 4

/-- The target `x = ∑ caraW i • caraT i = (1/4, 1/4, 1/4)`. -/
def caraX : Fin 3 → ℚ := fun _ => 1 / 4

/-- C2, witness: the notebook's own example (`T` the four corner points in
`ℚ³`, uniform weights, `k = 5`). -/
theorem C2_expectation_bound_witness :
    1 ≤ 5 ∧ (∀ i, 0 ≤ caraW i) ∧ (∑ i, caraW i) = 1 ∧
      (∀ c, caraX c = ∑ i, caraW i * caraT i c) ∧
      expected_sq_distance caraT caraW caraX 5 ≤ diamSqT caraT / 5 :=
  ⟨by decide, fun i => by norm_num [caraW],
    by norm_num [caraW, Fin.sum_univ_four],
    by
      intro c
      fin_cases c <;>
        norm_num [caraX, caraW, caraT, Fin.sum_univ_four] <;> decide,
    C2_expectation_bound caraT caraW caraX 5 (by decide)
      (fun i => by norm_num [caraW])
      (by norm_num [caraW, Fin.sum_univ_four])
      (by
        intro c
        fin_cases c <;>
          norm_num [caraX, caraW, caraT, Fin.sum_univ_four] <;> decide)⟩

/-- C9: with `k = 1` every trial's squared distance is the squared
Euclidean distance from the target to the single drawn point of `T`, and
the minimum distance over all draws of positive probability equals the
minimum over the positive-weight points `p` of `T` of the squared distance
from the target to `p`. -/
theorem C9_k_one {m n : Nat} (T : Fin m → Fin n → ℚ) (w : Fin m → ℚ)
    (x : Fin n → ℚ) (hw0 : ∀ i, 0 ≤ w i) (hw1 : ∑ i, w i = 1) :
    (∀ d : Fin 1 → Fin m,
      (sample_from_distribution T x 1 d).1 = sqDist x (T (d 0))) ∧
    ∃ hp : ((Finset.univ : Finset (Fin m)).filter
        (fun i => 0 < w i)).Nonempty,
      IsLeast {q : ℚ | ∃ d : Fin 1 → Fin m, 0 < (∏ j, w (d j)) ∧
          (sample_from_distribution T x 1 d).1 = q}
        (((Finset.univ : Finset (Fin m)).filter (fun i => 0 < w i)).inf' hp
          (fun i => sqDist x (T i))) := by
  have hdist : ∀ d : Fin 1 → Fin m,
      (sample_from_distribution T x 1 d).1 = sqDist x (T (d 0)) := by
    intro d
    simp [sample_from_distribution, sqDist, Fin.sum_univ_one]
  have hprod : ∀ d : Fin 1 → Fin m, (∏ j, w (d j)) = w (d 0) :=
    fun d => Fin.prod_univ_one (fun j => w (d j))
  have hpos : ∃ i, 0 < w i := by
    by_contra hall
    push_neg at hall
    have hzero : ∀ i, w i = 0 := fun i => le_antisymm (hall i) (hw0 i)
    have : (∑ i, w i) = 0 := Finset.sum_eq_zero (fun i _ => hzero i)
    rw [hw1] at this
    exact one_ne_zero this
  obtain ⟨i0, hi0⟩ := hpos
  have hp : ((Finset.univ : Finset (Fin m)).filter
      (fun i => 0 < w i)).Nonempty :=
    ⟨i0, Finset.mem_filter.mpr ⟨Finset.mem_univ _, hi0⟩⟩
  refine ⟨hdist, hp, ?_, ?_⟩
  · obtain ⟨i1, hi1mem, heq⟩ := Finset.exists_mem_eq_inf' hp
      (fun i => sqDist x (T i))
    exact ⟨fun _ => i1,
      by rw [hprod]; exact (Finset.mem_filter.mp hi1mem).2,
      (hdist (fun _ => i1)).trans heq.symm⟩
  · rintro q ⟨d, hdpos, rfl⟩
    rw [hdist d]
    exact Finset.inf'_le _ (Finset.mem_filter.mpr
      ⟨Finset.mem_univ _, by rwa [hprod] at hdpos⟩)

/-- C9, witness at the notebook example instance (positive uniform
weights). -/
theorem C9_k_one_witness :
    (∀ i, 0 ≤ caraW i) ∧ (∑ i, caraW i) = 1 ∧
      ((∀ d : Fin 1 → Fin 4,
        (sample_from_distribution caraT caraX 1 d).1 =
          sqDist caraX (caraT (d 0))) ∧
      ∃ hp : ((Finset.univ : Finset (Fin 4)).filter
          (fun i => 0 < caraW i)).Nonempty,
        IsLeast {q : ℚ | ∃ d : Fin 1 → Fin 4, 0 < (∏ j, caraW (d j)) ∧
            (sample_from_distribution caraT caraX 1 d).1 = q}
          (((Finset.univ : Finset (Fin 4)).filter
              (fun i => 0 < caraW i)).inf' hp
            (fun i => sqDist caraX (caraT i)))) :=
  ⟨fun i => by norm_num [caraW],
    by norm_num [caraW, Fin.sum_univ_four],
    C9_k_one caraT caraW caraX (fun i => by norm_num [caraW])
      (by norm_num [caraW, Fin.sum_univ_four])⟩


end Tripods
